import Mathlib

/-!
Verification of the OLLAP incremental response pipeline.

This file gives a shallow embedding, over `List Char` strings, of the
frontend streaming pipeline of the repository:

* the duplicate-content detector of
  `frontend/app/chat/[sessionId]/page.tsx` (`calculateSimilarity`,
  the halves check and the paragraph-level check of the `onDone`
  callback),
* the token handler of the same file (`onToken`),
* the stream relay of `frontend/app/api/chat/route.ts` together with the
  Zod schemas of `lib/api-schemas.ts` (`ChatStreamEventSchema`),
* the stream consumer of `frontend/lib/streamChat.ts`,
* the formula normalizer `cleanLaTeX` of `lib/latex-cleaner.ts`.

JavaScript strings are modelled as `List Char`; regular-expression
replacements are hand-compiled to recursive scanners with the exact
leftmost-match semantics of `String.prototype.replace` with a global
flag.  The character class `\s` is modelled over the ASCII whitespace
characters (the inputs of this development are ASCII).
-/

set_option maxRecDepth 20000

/-- JavaScript strings are modelled as lists of characters. -/
abbrev Str := List Char

/-- ASCII fragment of the JavaScript `\s` character class. -/
def isSpace (c : Char) : Bool :=
  c = ' ' || c = '\t' || c = '\n' || c = '\r' || c = '\x0b' || c = '\x0c'

/-- JavaScript `String.prototype.trim` (ASCII whitespace model). -/
def trim (s : Str) : Str :=
  ((s.dropWhile isSpace).reverse.dropWhile isSpace).reverse

/-- JavaScript `String.prototype.toLowerCase` (ASCII model). -/
def lower (s : Str) : Str := s.map Char.toLower

/-- JavaScript `haystack.includes(pat)`: `pat` occurs as a contiguous
substring of the second argument. -/
def containsSub (pat : Str) : Str → Bool
  | [] => pat.isEmpty
  | c :: cs => pat.isPrefixOf (c :: cs) || containsSub pat cs

/-- Scanner for the JavaScript replacement `replace(/\s+/g, ' ')`:
every maximal run of whitespace becomes a single space. -/
def collapseWs : Str → Str
  | [] => []
  | [c] => if isSpace c then [' '] else [c]
  | c :: d :: cs =>
    if isSpace c then
      if isSpace d then collapseWs (d :: cs) else ' ' :: collapseWs (d :: cs)
    else c :: collapseWs (d :: cs)

/-- Worker for `splitWs`; the flag records whether the scanner is inside
a whitespace run, `acc` holds the reversed current token. -/
def splitWsGo : Bool → Str → Str → List Str
  | _, [], acc => [acc.reverse]
  | inWs, c :: cs, acc =>
    if isSpace c then
      if inWs then splitWsGo true cs acc
      else acc.reverse :: splitWsGo true cs []
    else splitWsGo false cs (c :: acc)

/-- JavaScript `s.split(/\s+/)`: split on maximal whitespace runs,
keeping the empty tokens that JavaScript produces at the two ends. -/
def splitWs (s : Str) : List Str := splitWsGo false s []

/-- The `calculateSimilarity` helper of
`frontend/app/chat/[sessionId]/page.tsx`, verbatim: designate longer and
shorter input, early substring checks, then the word-overlap ratio. -/
def calculateSimilarity (str1 str2 : Str) : ℚ :=
  let longer := if str2.length < str1.length then str1 else str2
  let shorter := if str2.length < str1.length then str2 else str1
  if longer.length = 0 then 1
  else
    let longerNormalized := collapseWs (lower longer)
    let shorterNormalized := collapseWs (lower shorter)
    if containsSub shorterNormalized longerNormalized
        || containsSub (longerNormalized.take shorterNormalized.length)
            shorterNormalized then
      9 / 10
    else
      let words1 := (splitWs longerNormalized).filter fun w => 3 < w.length
      let words2 := (splitWs shorterNormalized).filter fun w => 3 < w.length
      if words1.length = 0 || words2.length = 0 then 0
      else
        let commonWords := words1.filter fun w => words2.contains w
        (2 * commonWords.length : ℚ) / (words1.length + words2.length)

/-- Scanner test for the regular expression `^(assistant|Assistant):\s*`
with the `i` flag: the first nine characters spell `assistant` in any
case and are followed by a colon. -/
def roleTagMatches (s : Str) : Bool :=
  decide (lower (s.take 9) = "assistant".toList) && decide ((s.drop 9).headD ' ' = ':')
    && decide (9 < s.length)

/-- The replacement `token.replace(/^(assistant|Assistant):\s*/i, '')`
used on every token of the `onToken` callback of
`frontend/app/chat/[sessionId]/page.tsx`: drop the role tag and the
whitespace run after the colon. -/
def stripRoleTag (s : Str) : Str :=
  if roleTagMatches s then (s.drop 10).dropWhile isSpace else s

/-- Dispatch target of a delta fragment in the `onToken` callback:
either replace the waiting message or append a chunk to it. -/
inductive TokenAct where
  | replaceMsg (s : Str)
  | appendChunk (s : Str)
deriving DecidableEq

/-- Text carried by a token-handler dispatch. -/
def actText : TokenAct → Str
  | .replaceMsg s => s
  | .appendChunk s => s

/-- The `onToken` callback of `handleSendMessage`: clean the token, then
dispatch on the `firstToken` flag; returns the dispatch and the new flag. -/
def onTokenStep (firstToken : Bool) (token : Str) : TokenAct × Bool :=
  let cleanedToken := stripRoleTag token
  if firstToken then (.replaceMsg cleanedToken, false)
  else (.appendChunk cleanedToken, false)

/-- Worker of `splitSections`; the flag records whether the scanner is
inside a separator run (two or more consecutive newlines), `acc` holds
the reversed current section. -/
def splitSecGo : Bool → Str → Str → List Str
  | true, [], _ => [[]]
  | false, [], acc => [acc.reverse]
  | true, c :: cs, acc =>
    if c = '\n' then splitSecGo true cs acc else splitSecGo false cs [c]
  | false, c :: cs, acc =>
    if c = '\n' then
      match cs with
      | [] => [(c :: acc).reverse]
      | d :: ds =>
        if d = '\n' then acc.reverse :: splitSecGo true (d :: ds) []
        else splitSecGo false (d :: ds) (c :: acc)
    else splitSecGo false cs (c :: acc)

/-- JavaScript `content.split(/\n{2,}/).filter(s => s.trim())`: split on
maximal runs of at least two newlines, then discard blank sections. -/
def splitSections (content : Str) : List Str :=
  (splitSecGo false content []).filter fun s => !(trim s).isEmpty

/-- Signature used by the paragraph-level duplicate check, verbatim from
the source: `section.trim().toLowerCase().substring(0, 150).replace(/\s+/g, ' ')`
— trim, lowercase, truncate to 150 characters, then collapse whitespace. -/
def normalizeSec (sec : Str) : Str :=
  collapseWs ((lower (trim sec)).take 150)

/-- Association-list model of the JavaScript `Map<string, number>`. -/
abbrev SigMap := List (Str × Nat)

/-- JavaScript `seen.get(k) || 0`. -/
def mapGet (m : SigMap) (k : Str) : Nat :=
  match m.find? (fun p => p.1 = k) with
  | some p => p.2
  | none => 0

/-- JavaScript `seen.set(k, v)`: overwrite an existing binding in place,
otherwise append the new binding at the end. -/
def mapSet : SigMap → Str → Nat → SigMap
  | [], k, v => [(k, v)]
  | p :: m, k, v => if p.1 = k then (k, v) :: m else p :: mapSet m k v

/-- The `sections.forEach` walk of the paragraph-level check: keep a
section when its signature has count zero in `seen`, and bump the
signature count either way. -/
def dedupSections (seen : SigMap) : List Str → List Str
  | [] => []
  | sec :: rest =>
    let normalized := normalizeSec sec
    let count := mapGet seen normalized
    if count = 0 then sec :: dedupSections (mapSet seen normalized 1) rest
    else dedupSections (mapSet seen normalized (count + 1)) rest

/-- JavaScript `uniqueSections.join("\n\n")`. -/
def joinBlank (l : List Str) : Str :=
  List.intercalate ('\n' :: '\n' :: []) l

/-- Paragraph-level duplicate check of the `onDone` callback: split into
sections; when there are at least two and the walk discarded one,
replace the content by the rejoined survivors. -/
def paragraphCheck (content : Str) : Str :=
  let sections := splitSections content
  if 1 < sections.length then
    let uniqueSections := dedupSections [] sections
    if uniqueSections.length < sections.length then joinBlank uniqueSections
    else content
  else content

/-- The Duplicate Detector of the `onDone` callback of
`frontend/app/chat/[sessionId]/page.tsx` (the deduplication stage; the
formula normalizer `cleanLaTeX` is applied to its result afterwards):
trim, try the whole-message halves check, otherwise run the
paragraph-level check. -/
def dedupContent (text : Str) : Str :=
  let content := trim text
  let midPoint := content.length / 2
  let firstHalf := trim (content.take midPoint)
  let secondHalf := trim (content.drop midPoint)
  if 100 < firstHalf.length ∧ 100 < secondHalf.length ∧
      (8 : ℚ) / 10 < calculateSimilarity firstHalf secondHalf then
    firstHalf
  else paragraphCheck content

/-- Modelled from the spec: the signature formula exactly as the spec
words it — lowercase the section, collapse internal whitespace runs to
single spaces, then take the first 150 characters of the collapsed
string.  Kept separate from the source-faithful `normalizeSec` so the
two orders of truncation and collapsing can be compared. -/
def specSignature (sec : Str) : Str :=
  (collapseWs (lower sec)).take 150

/-- Declarative first-occurrence filter: keep a section exactly when its
code signature differs from the signature of every earlier section;
`prior` collects the sections already walked. -/
def keepFirstBySig (prior : List Str) : List Str → List Str
  | [] => []
  | sec :: rest =>
    if normalizeSec sec ∈ prior.map normalizeSec then
      keepFirstBySig (prior ++ [sec]) rest
    else sec :: keepFirstBySig (prior ++ [sec]) rest

/-- Concrete section used by the paragraph-check counterexample: the
letter a, two spaces, then 148 copies of b (151 characters). -/
def cexA : Str := 'a' :: ' ' :: ' ' :: List.replicate 148 'b'

/-- Concrete section used by the paragraph-check counterexample: the
letter a, one space, then 148 copies of b (150 characters). -/
def cexB : Str := 'a' :: ' ' :: List.replicate 148 'b'

/-- Concrete text used by the paragraph-check counterexample: the two
sections above separated by one blank line. -/
def cexText : Str := cexB ++ '\n' :: '\n' :: cexA

/-- JSON values.  Numbers are modelled as integers: the streaming
payloads of this pipeline carry only strings, booleans and objects, so
fractions and exponents are not modelled. -/
inductive Json where
  | null
  | bool (b : Bool)
  | num (n : Int)
  | str (s : Str)
  | arr (xs : List Json)
  | obj (fields : List (Str × Json))

/-- JSON whitespace (RFC 8259). -/
def jsonWs (c : Char) : Bool := c = ' ' || c = '\t' || c = '\n' || c = '\r'

/-- Hexadecimal digit value, for the `\uXXXX` string escape. -/
def hexVal (c : Char) : Option Nat :=
  if '0' ≤ c ∧ c ≤ '9' then some (c.toNat - 48)
  else if 'a' ≤ c ∧ c ≤ 'f' then some (c.toNat - 87)
  else if 'A' ≤ c ∧ c ≤ 'F' then some (c.toNat - 55)
  else none

/-- JSON string-body parser: consume characters up to the closing
quote, decoding the escape sequences; fails on control characters and
invalid escapes, as `JSON.parse` does. -/
def parseStringRest : Str → Option (Str × Str)
  | [] => none
  | c :: r =>
    if c = '"' then some ([], r)
    else if c = '\\' then
      match r with
      | [] => none
      | e :: r2 =>
        if e = '"' then (parseStringRest r2).map fun p => ('"' :: p.1, p.2)
        else if e = '\\' then (parseStringRest r2).map fun p => ('\\' :: p.1, p.2)
        else if e = '/' then (parseStringRest r2).map fun p => ('/' :: p.1, p.2)
        else if e = 'b' then (parseStringRest r2).map fun p => ('\x08' :: p.1, p.2)
        else if e = 'f' then (parseStringRest r2).map fun p => ('\x0c' :: p.1, p.2)
        else if e = 'n' then (parseStringRest r2).map fun p => ('\n' :: p.1, p.2)
        else if e = 'r' then (parseStringRest r2).map fun p => ('\r' :: p.1, p.2)
        else if e = 't' then (parseStringRest r2).map fun p => ('\t' :: p.1, p.2)
        else if e = 'u' then
          match r2 with
          | h1 :: h2 :: h3 :: h4 :: r3 =>
            match hexVal h1, hexVal h2, hexVal h3, hexVal h4 with
            | some a, some b, some c2, some d =>
              (parseStringRest r3).map fun p =>
                (Char.ofNat (((a * 16 + b) * 16 + c2) * 16 + d) :: p.1, p.2)
            | _, _, _, _ => none
          | _ => none
        else none
    else if c.toNat < 32 then none
    else (parseStringRest r).map fun p => (c :: p.1, p.2)

/-- JSON number parser: optional minus sign and a digit run with the
JSON leading-zero rule (integers only, see `Json`). -/
def parseNum (s : Str) : Option (Json × Str) :=
  let neg := match s with
    | '-' :: _ => true
    | _ => false
  let s1 := if neg then s.tail else s
  let ds := s1.takeWhile Char.isDigit
  let rest := s1.dropWhile Char.isDigit
  if ds.isEmpty then none
  else if 1 < ds.length ∧ ds.headD '0' = '0' then none
  else
    let n : Nat := ds.foldl (fun a c => a * 10 + (c.toNat - 48)) 0
    some (.num (if neg then -(n : Int) else (n : Int)), rest)

mutual

/-- Fuel-indexed JSON value parser (the fuel strictly decreases on
every nested call; `jsonParse` supplies enough fuel for any input). -/
def parseVal : Nat → Str → Option (Json × Str)
  | 0, _ => none
  | fuel + 1, s =>
    match s.dropWhile jsonWs with
    | 'n' :: 'u' :: 'l' :: 'l' :: r => some (.null, r)
    | 't' :: 'r' :: 'u' :: 'e' :: r => some (.bool true, r)
    | 'f' :: 'a' :: 'l' :: 's' :: 'e' :: r => some (.bool false, r)
    | '"' :: r => (parseStringRest r).map fun p => (.str p.1, p.2)
    | '[' :: r =>
      match r.dropWhile jsonWs with
      | ']' :: r2 => some (.arr [], r2)
      | r2 => (parseItems fuel r2).map fun p => (.arr p.1, p.2)
    | '\x7b' :: r =>
      match r.dropWhile jsonWs with
      | '\x7d' :: r2 => some (.obj [], r2)
      | r2 => (parseMembers fuel r2).map fun p => (.obj p.1, p.2)
    | s2 => parseNum s2

/-- Comma-separated array items up to the closing bracket. -/
def parseItems : Nat → Str → Option (List Json × Str)
  | 0, _ => none
  | fuel + 1, s =>
    match parseVal fuel s with
    | none => none
    | some (v, r) =>
      match r.dropWhile jsonWs with
      | ',' :: r2 => (parseItems fuel r2).map fun p => (v :: p.1, p.2)
      | ']' :: r2 => some ([v], r2)
      | _ => none

/-- Comma-separated object members up to the closing brace. -/
def parseMembers : Nat → Str → Option (List (Str × Json) × Str)
  | 0, _ => none
  | fuel + 1, s =>
    match s.dropWhile jsonWs with
    | '"' :: r =>
      match parseStringRest r with
      | none => none
      | some (key, r2) =>
        match r2.dropWhile jsonWs with
        | ':' :: r3 =>
          match parseVal fuel r3 with
          | none => none
          | some (v, r4) =>
            match r4.dropWhile jsonWs with
            | ',' :: r5 => (parseMembers fuel r5).map fun p => ((key, v) :: p.1, p.2)
            | '\x7d' :: r5 => some ([(key, v)], r5)
            | _ => none
        | _ => none
    | _ => none

end

/-- JavaScript `JSON.parse`: parse one JSON value and require that only
whitespace remains. -/
def jsonParse (s : Str) : Option Json :=
  match parseVal (2 * s.length + 2) s with
  | some (v, r) => if (r.dropWhile jsonWs).isEmpty then some v else none
  | none => none

/-- Hexadecimal digit character, for `JSON.stringify` escapes. -/
def hexDigit (n : Nat) : Char :=
  if n < 10 then Char.ofNat (48 + n) else Char.ofNat (87 + n)

/-- The `JSON.stringify` escape of one string character. -/
def escapeChar (c : Char) : Str :=
  if c = '"' then ['\\', '"']
  else if c = '\\' then ['\\', '\\']
  else if c = '\n' then ['\\', 'n']
  else if c = '\r' then ['\\', 'r']
  else if c = '\t' then ['\\', 't']
  else if c = '\x08' then ['\\', 'b']
  else if c = '\x0c' then ['\\', 'f']
  else if c.toNat < 32 then
    ['\\', 'u', '0', '0', hexDigit (c.toNat / 16), hexDigit (c.toNat % 16)]
  else [c]

/-- `JSON.stringify` of a string value. -/
def quoteStr (s : Str) : Str := '"' :: ((s.map escapeChar).flatten ++ ['"'])

/-- Key and tag literals of the wire schema. -/
def keyType : Str := "type".toList

/-- Key literal `token`. -/
def keyToken : Str := "token".toList

/-- Key literal `message`. -/
def keyMessage : Str := "message".toList

/-- Key literal `code`. -/
def keyCode : Str := "code".toList

/-- Key literal `name`. -/
def keyName : Str := "name".toList

/-- Key literal `args`. -/
def keyArgs : Str := "args".toList

/-- Tag literal `delta`. -/
def tagDelta : Str := "delta".toList

/-- Tag literal `error`. -/
def tagError : Str := "error".toList

/-- Tag literal `done`. -/
def tagDone : Str := "done".toList

/-- Tag literal `tool`. -/
def tagTool : Str := "tool".toList

/-- The variants of `ChatStreamEventSchema` of `lib/api-schemas.ts`: a
`z.discriminatedUnion` on `type` with exactly the three strict object
schemas delta, error and done — the schema has no tool variant. -/
inductive ChatStreamEvent where
  | delta (token : Str)
  | error (message : Str) (code : Option Str)
  | done

/-- Field lookup on a parsed JSON object (the payloads considered here
carry no duplicate keys). -/
def getField (fields : List (Str × Json)) (k : Str) : Option Json :=
  match fields.find? (fun p => p.1 = k) with
  | some p => some p.2
  | none => none

/-- Strictness check of a `.strict()` Zod object schema: every key of
the value must be declared by the schema. -/
def keysAllowed (fields : List (Str × Json)) (allowed : List Str) : Bool :=
  fields.all fun p => allowed.contains p.1

/-- `ChatStreamEventSchema.safeParse`: the discriminated union on the
`type` field.  `delta` requires a nonempty string `token`; `error`
requires a nonempty string `message` and optionally a string `code` of
at most 100 characters; `done` has no payload; each variant is strict;
any other `type` value (for example `tool`) fails validation. -/
def validateEvent : Json → Option ChatStreamEvent
  | .obj fields =>
    (match getField fields keyType with
    | some (.str t) =>
      if t = tagDelta then
        match getField fields keyToken with
        | some (.str tok) =>
          if 1 ≤ tok.length ∧ keysAllowed fields [keyType, keyToken] then
            some (.delta tok)
          else none
        | _ => none
      else if t = tagError then
        match getField fields keyMessage with
        | some (.str msg) =>
          if 1 ≤ msg.length ∧ keysAllowed fields [keyType, keyMessage, keyCode] then
            match getField fields keyCode with
            | none => some (.error msg none)
            | some (.str c) => if c.length ≤ 100 then some (.error msg (some c)) else none
            | some _ => none
          else none
        | _ => none
      else if t = tagDone then
        if keysAllowed fields [keyType] then some .done else none
      else none
    | _ => none)
  | _ => none

/-- `JSON.stringify` of the Zod-validated event object; the key order is
the declaration order of the schema shape. -/
def serializeEvent : ChatStreamEvent → Str
  | .delta tok =>
    "\x7b\"type\":\"delta\",\"token\":".toList ++ quoteStr tok ++ "\x7d".toList
  | .error msg none =>
    "\x7b\"type\":\"error\",\"message\":".toList ++ quoteStr msg ++ "\x7d".toList
  | .error msg (some c) =>
    "\x7b\"type\":\"error\",\"message\":".toList ++ quoteStr msg
      ++ ",\"code\":".toList ++ quoteStr c ++ "\x7d".toList
  | .done => "\x7b\"type\":\"done\"\x7d".toList

/-- The fixed event the relay synthesizes on schema-validation failure
(`ChatStreamErrorSchema.parse` of the literal error object with code
`validation_error`). -/
def invalidEvent : ChatStreamEvent :=
  .error ("Invalid event format from backend".toList) (some ("validation_error".toList))

/-- JavaScript `buffer.split('\n')`: always at least one element. -/
def splitLines : Str → List Str
  | [] => [[]]
  | c :: cs =>
    if c = '\n' then [] :: splitLines cs
    else
      match splitLines cs with
      | [] => [[c]]
      | l :: ls => (c :: l) :: ls

/-- JavaScript `lines.pop() || ''`: the array without its last element,
paired with that last element. -/
def popLast : List Str → List Str × Str
  | [] => ([], [])
  | [a] => ([], a)
  | a :: b :: t =>
    let p := popLast (b :: t)
    (a :: p.1, p.2)

/-- Per-line processing of the relay loop of
`frontend/app/api/chat/route.ts`: skip lines that trim to nothing, skip
JSON-parse failures, forward the re-serialized validated event, and
replace a schema-invalid event by the synthesized `invalidEvent`; every
enqueued line is newline-terminated. -/
def relayLine (line : Str) : List Str :=
  if (trim line).isEmpty then []
  else
    match jsonParse line with
    | none => []
    | some parsed =>
      match validateEvent parsed with
      | some ev => [serializeEvent ev ++ ['\n']]
      | none => [serializeEvent invalidEvent ++ ['\n']]

/-- One iteration of the relay read loop: append the chunk to the
buffer, split on newlines, keep the part after the last newline as the
new buffer, and process every complete line in order. -/
def relayAbsorb (st : Str × List Str) (chunk : Str) : Str × List Str :=
  let p := popLast (splitLines (st.1 ++ chunk))
  (p.2, st.2 ++ p.1.flatMap relayLine)

/-- Final pass on the trailing buffer when the upstream ends: parse and
validate it, emit a valid event re-serialized, and silently skip both a
parse failure and a validation failure (unlike the in-loop path, no
error event is synthesized here). -/
def relayFinish (buffer : Str) : List Str :=
  if (trim buffer).isEmpty then []
  else
    match jsonParse buffer with
    | none => []
    | some parsed =>
      match validateEvent parsed with
      | some ev => [serializeEvent ev ++ ['\n']]
      | none => []

/-- The Stream Relay of `frontend/app/api/chat/route.ts`: fold the read
loop over the incoming chunk sequence starting from the empty buffer,
then run the final pass on the trailing buffer and close. -/
def relayRun (chunks : List Str) : List Str :=
  let st := chunks.foldl relayAbsorb ([], [])
  st.2 ++ relayFinish st.1

/-- A dispatched handler invocation of the `streamChat` consumer
(`none` payloads model JavaScript `undefined` property reads). -/
inductive ConsumerCall where
  | onToken (tok : Option Json)
  | onTool (name : Option Json) (args : Option Json)
  | onDone (payload : Json)

/-- JavaScript property access `parsed.k` as used by `streamChat`
(`none` models `undefined`; non-objects have no such properties). -/
def jsonProp : Json → Str → Option Json
  | .obj fields, k => getField fields k
  | _, _ => none

/-- Per-line dispatch of `frontend/lib/streamChat.ts`: skip lines that
trim to nothing and JSON-parse failures, then dispatch on
`parsed.type`; a line of any other type — in particular `error` —
dispatches no handler at all. -/
def consumeLine (part : Str) : List ConsumerCall :=
  if (trim part).isEmpty then []
  else
    match jsonParse part with
    | none => []
    | some parsed =>
      match jsonProp parsed keyType with
      | some (.str t) =>
        if t = tagDelta then [.onToken (jsonProp parsed keyToken)]
        else if t = tagTool then [.onTool (jsonProp parsed keyName) (jsonProp parsed keyArgs)]
        else if t = tagDone then [.onDone parsed]
        else []
      | _ => []

/-- The consumer's handling of the complete lines of one read
iteration, in order. -/
def consumeParts (parts : List Str) : List ConsumerCall :=
  parts.flatMap consumeLine

/-- Helper for the split-append lemma: prepend a string to the first
line of a line list. -/
def mergeHead (a : Str) : List Str → List Str
  | [] => [a]
  | h :: t => (a ++ h) :: t

/-- Replacement callback of step 0 of `cleanLaTeX`
(`lib/latex-cleaner.ts`): trim the captured formula, choose display math
when it contains a fraction, summation, bar, times, arrow or dot
construct, an equals sign with length over 15, a line break, or has
length over 40; wrap in `$$`/`$` accordingly. -/
def convertSpan (formula : Str) : Str :=
  let trimmed := trim formula
  let isDisplayMath :=
    containsSub ("\\frac".toList) trimmed ||
    containsSub ("\\sum".toList) trimmed ||
    containsSub ("\\bar".toList) trimmed ||
    containsSub ("\\times".toList) trimmed ||
    containsSub ("\\rightarrow".toList) trimmed ||
    containsSub ("\\cdot".toList) trimmed ||
    (trimmed.contains '=' && decide (15 < trimmed.length)) ||
    trimmed.contains '\n' ||
    decide (40 < trimmed.length)
  if isDisplayMath then '$' :: '$' :: (trimmed ++ '$' :: '$' :: [])
  else '$' :: (trimmed ++ ['$'])

/-- Scanner for the global replacement of `/<<<([^>]+)>>>/g` (step 0 of
`cleanLaTeX`): at each position, `<<<` followed by a nonempty run of
characters other than `>` and then `>>>` is replaced via `convertSpan`;
otherwise one character is copied.  The fuel bounds the recursion; one
unit is spent per consumed character, so the input length suffices. -/
def step0F : Nat → Str → Str
  | 0, s => s
  | fuel + 1, s =>
    match s with
    | [] => []
    | c :: cs =>
      if c = '<' ∧ cs.take 2 = ['<', '<'] then
        let rest := cs.drop 2
        let run := rest.takeWhile (fun x => x ≠ '>')
        let r2 := rest.dropWhile (fun x => x ≠ '>')
        if run.isEmpty then c :: step0F fuel cs
        else if r2.take 3 = ['>', '>', '>'] then
          convertSpan run ++ step0F fuel (r2.drop 3)
        else c :: step0F fuel cs
      else c :: step0F fuel cs

/-- Step 0 of `cleanLaTeX` with its fuel supplied. -/
def step0 (s : Str) : Str := step0F s.length s

/-- Scanner for the global replacement of
`/\n(assistant|Assistant):\s*/gi` with `"\n"` (step 1 of
`cleanLaTeX`). -/
def stripNlRoleF : Nat → Str → Str
  | 0, s => s
  | fuel + 1, s =>
    match s with
    | [] => []
    | c :: cs =>
      if c = '\n' ∧ roleTagMatches cs then
        '\n' :: stripNlRoleF fuel ((cs.drop 10).dropWhile isSpace)
      else c :: stripNlRoleF fuel cs

/-- Scanner for pattern 1 of step 2 of `cleanLaTeX`,
`/\$\$([^$]+)\$(?!\$)/g`: display math closed by a single `$` is
promoted to a `$$` pair (the negative lookahead is not consumed). -/
def fixP1F : Nat → Str → Str
  | 0, s => s
  | fuel + 1, s =>
    match s with
    | [] => []
    | c :: cs =>
      if c = '$' ∧ cs.take 1 = ['$'] then
        let rest := cs.drop 1
        let run := rest.takeWhile (fun x => x ≠ '$')
        let r2 := rest.dropWhile (fun x => x ≠ '$')
        if run.isEmpty then c :: fixP1F fuel cs
        else if r2.take 1 = ['$'] ∧ ¬ r2.take 2 = ['$', '$'] then
          ('$' :: '$' :: run) ++ '$' :: '$' :: fixP1F fuel (r2.drop 1)
        else c :: fixP1F fuel cs
      else c :: fixP1F fuel cs

/-- Tail matcher for pattern 2 of step 2 of `cleanLaTeX`: the part
`\$([^$]+)\$\$` of the regular expression, at the start of the input;
returns the captured content and the rest after the two closing
dollars. -/
def p2Tail (s : Str) : Option (Str × Str) :=
  if s.take 1 = ['$'] then
    let r := s.drop 1
    let run := r.takeWhile (fun x => x ≠ '$')
    let r2 := r.dropWhile (fun x => x ≠ '$')
    if run.isEmpty then none
    else if r2.take 2 = ['$', '$'] then some (run, r2.drop 2)
    else none
  else none

/-- Scanner for pattern 2 of step 2 of `cleanLaTeX`,
`/([^$]|^)\$([^$]+)\$\$/g`: inline math closed by a `$$` pair is
demoted to a single closing `$`; the flag records whether the scanner
is still at the very start of the string (where the `^` alternative of
the first group can match without consuming a character). -/
def fixP2F : Nat → Bool → Str → Str
  | 0, _, s => s
  | fuel + 1, atStart, s =>
    match s with
    | [] => []
    | c :: cs =>
      if c = '$' then
        if atStart then
          match p2Tail (c :: cs) with
          | some (content, r3) => '$' :: content ++ '$' :: fixP2F fuel false r3
          | none => c :: fixP2F fuel false cs
        else c :: fixP2F fuel false cs
      else
        match p2Tail cs with
        | some (content, r3) => c :: '$' :: content ++ '$' :: fixP2F fuel false r3
        | none => c :: fixP2F fuel false cs

/-- Index of the first occurrence of `$$`. -/
def indexOfDDAux : Str → Option Nat
  | [] => none
  | c :: cs =>
    if c = '$' ∧ cs.take 1 = ['$'] then some 0
    else (indexOfDDAux cs).map (· + 1)

/-- JavaScript `cleaned.indexOf('$$', searchFrom)` (with `none` for
`-1`). -/
def indexOfDD (s : Str) (start : Nat) : Option Nat :=
  (indexOfDDAux (s.drop start)).map (· + start)

/-- The punctuation class `[.,;:!?\)\]\}]` of the content lookahead of
pattern 3 of `cleanLaTeX`. -/
def isPunct (c : Char) : Bool :=
  c = '.' || c = ',' || c = ';' || c = ':' || c = '!' || c = '?' ||
  c = ')' || c = ']' || c = '\x7d'

/-- The lazy content match `/^([^$\n]+?)(?=\s|$|[.,;:!?\)\]\}])/` of
pattern 3 of `cleanLaTeX`: the shortest nonempty run of characters
other than `$` and newline whose next character is whitespace,
punctuation, or the end of the string. -/
def contentMatchF : Str → Option Str
  | [] => none
  | c :: cs =>
    if c = '$' ∨ c = '\n' then none
    else
      match cs with
      | [] => some [c]
      | d :: _ =>
        if isSpace d ∨ isPunct d then some [c]
        else (contentMatchF cs).map fun r => c :: r

/-- The `while (true)` loop of step 2 of `cleanLaTeX` (pattern 3):
find the next `$$` from `searchFrom`; skip a closing `$$`; when no `$`
follows at all, insert a closing `$$` after the matched content run (or
append it at the very end); otherwise only advance `searchFrom`.  Each
iteration advances `searchFrom` by at least two while the string grows
by at most two, so `length + 4` fuel is enough. -/
def fixLoopF : Nat → Str → Nat → Str
  | 0, cleaned, _ => cleaned
  | fuel + 1, cleaned, searchFrom =>
    match indexOfDD cleaned searchFrom with
    | none => cleaned
    | some dollarIndex =>
      let afterDollar := cleaned.drop (dollarIndex + 2)
      if afterDollar.take 2 = ['$', '$'] then fixLoopF fuel cleaned (dollarIndex + 4)
      else
        match afterDollar.findIdx? (fun x => x = '$') with
        | none =>
          match contentMatchF afterDollar with
          | some content =>
            let insertPos := dollarIndex + 2 + content.length
            fixLoopF fuel (cleaned.take insertPos ++ '$' :: '$' :: cleaned.drop insertPos)
              (insertPos + 2)
          | none => cleaned ++ '$' :: '$' :: []
        | some nextDollar =>
          if 0 < nextDollar ∧ nextDollar < afterDollar.length - 1 ∧
              afterDollar.getD (nextDollar + 1) ' ' ≠ '$' then
            fixLoopF fuel cleaned (dollarIndex + 2 + nextDollar + 1)
          else if nextDollar < afterDollar.length - 1 ∧
              afterDollar.getD (nextDollar + 1) ' ' = '$' then
            fixLoopF fuel cleaned (dollarIndex + 2 + nextDollar + 2)
          else fixLoopF fuel cleaned (dollarIndex + 2)

/-- Scanner for step 3 of `cleanLaTeX`, `/\$\$([^$]*)\$([^$]*)\$\$/g`:
a nested `$` pair inside a display pair is collapsed
(`$$a$b$$` becomes `$$ab$$`). -/
def fixP3F : Nat → Str → Str
  | 0, s => s
  | fuel + 1, s =>
    match s with
    | [] => []
    | c :: cs =>
      if c = '$' ∧ cs.take 1 = ['$'] then
        let rest := cs.drop 1
        let a := rest.takeWhile (fun x => x ≠ '$')
        let r2 := rest.dropWhile (fun x => x ≠ '$')
        if r2.take 1 = ['$'] then
          let r3 := r2.drop 1
          let b := r3.takeWhile (fun x => x ≠ '$')
          let r4 := r3.dropWhile (fun x => x ≠ '$')
          if r4.take 2 = ['$', '$'] then
            ('$' :: '$' :: (a ++ b)) ++ '$' :: '$' :: fixP3F fuel (r4.drop 2)
          else c :: fixP3F fuel cs
        else c :: fixP3F fuel cs
      else c :: fixP3F fuel cs

/-- Scanner for step 4 of `cleanLaTeX`, `/\$\$([a-z])\$\$/g`: a display
pair around one lowercase letter is demoted to an inline pair. -/
def fixP4F : Nat → Str → Str
  | 0, s => s
  | fuel + 1, s =>
    match s with
    | [] => []
    | c :: cs =>
      if c = '$' ∧ cs.headD ' ' = '$' ∧ 'a' ≤ (cs.drop 1).headD ' ' ∧
          (cs.drop 1).headD ' ' ≤ 'z' ∧ (cs.drop 2).take 2 = ['$', '$'] then
        '$' :: (cs.drop 1).headD ' ' :: '$' :: fixP4F fuel (cs.drop 4)
      else c :: fixP4F fuel cs

/-- The Formula Normalizer `cleanLaTeX` of `lib/latex-cleaner.ts`: the
formula-span conversion (step 0), the two role-tag replacements
(step 1), the mismatched-delimiter repairs (step 2: patterns 1, 2 and
the unclosed-`$$` loop), the nested-pair collapse (step 3), the
single-variable demotion (step 4), and the final trim, in source
order. -/
def cleanLaTeX (content : Str) : Str :=
  let c0 := step0 content
  let c1 := stripRoleTag c0
  let c2 := stripNlRoleF c1.length c1
  let c3 := fixP1F c2.length c2
  let c4 := fixP2F c3.length true c3
  let c5 := fixLoopF (c4.length + 4) c4 0
  let c6 := fixP3F c5.length c5
  let c7 := fixP4F c6.length c6
  trim c7

/-! ## Theorems -/

/-- Helper bound: the word-overlap ratio `2c/(w1+w2)` is below `2`
whenever the common-word count is bounded by the first word count and
the second word count is positive. -/
theorem simRatioLtTwo (c w1 w2 : ℕ) (hc : c ≤ w1) (h2 : w2 ≠ 0) :
    (2 * c : ℚ) / (w1 + w2) < 2 := by
  have h2Q : (1 : ℚ) ≤ (w2 : ℚ) := by exact_mod_cast Nat.one_le_iff_ne_zero.2 h2
  have hcQ : (c : ℚ) ≤ (w1 : ℚ) := by exact_mod_cast hc
  have hpos : (0 : ℚ) < (w1 : ℚ) + (w2 : ℚ) := by
    have : (0 : ℚ) ≤ (w1 : ℚ) := by positivity
    linarith
  rw [div_lt_iff₀ hpos]
  nlinarith

/-- C3, counterexample.  The claim says the similarity score always lies
in `[0, 1]`, in particular with repeated words.  On the concrete pair
`"aaaa aaaa aaaa aaaa"` / `"x aaaa"` (the longer text repeats the word
`aaaa` four times) the code returns `2*4/(4+1) = 8/5 > 1`: the filter
over the longer word list counts every repeated occurrence. -/
theorem calculateSimilarity_gt_one_on_repeated_words :
    1 < calculateSimilarity "aaaa aaaa aaaa aaaa".toList "x aaaa".toList := by
  have h : calculateSimilarity "aaaa aaaa aaaa aaaa".toList "x aaaa".toList
      = (2 * ((4 : ℕ) : ℚ)) / (((4 : ℕ) : ℚ) + ((1 : ℕ) : ℚ)) := rfl
  rw [h]; norm_num

/-- C3, amended.  For every pair of strings the Duplicate Detector's
similarity function returns a value in `[0, 2)`: it is never negative,
but with repeated words in the longer word list it can exceed `1`
(see the counterexample), and it always stays strictly below `2`. -/
theorem calculateSimilarity_nonneg_lt_two (str1 str2 : Str) :
    0 ≤ calculateSimilarity str1 str2 ∧ calculateSimilarity str1 str2 < 2 := by
  unfold calculateSimilarity
  set L := if str2.length < str1.length then str1 else str2 with hL
  set S := if str2.length < str1.length then str2 else str1 with hS
  simp only []
  split_ifs with h0 hsub hzero
  · norm_num
  · norm_num
  · norm_num
  · refine ⟨by positivity, ?_⟩
    apply simRatioLtTwo _ _ _ (List.length_filter_le _ _)
    intro hz
    rw [List.length_eq_zero] at hz
    have hall := List.filter_eq_nil_iff.mp hz
    apply hzero
    simp only [Bool.or_eq_true, decide_eq_true_eq]
    right
    rw [List.length_eq_zero]
    exact List.filter_eq_nil_iff.mpr hall

/-- C4, counterexample.  The claim says only the very first delta
fragment has its role tag stripped and later fragments pass unmodified.
On the later fragment (the `firstToken` flag already `false`) with text
"assistant: hi" the token handler nevertheless receives "hi". -/
theorem onToken_second_fragment_stripped :
    actText (onTokenStep false "assistant: hi".toList).1 = "hi".toList ∧
    actText (onTokenStep false "assistant: hi".toList).1 ≠ "assistant: hi".toList := by
  decide

/-- C4, amended.  The consumer strips a leading case-insensitive
"assistant:" role tag (with any following whitespace) from every delta
fragment, not only from the first: the fragment dispatched to the token
handler is always `stripRoleTag token`, and the `firstToken` flag only
selects whether the waiting message is replaced or a chunk is appended. -/
theorem onTokenStep_strips_every_fragment (firstToken : Bool) (token : Str) :
    actText (onTokenStep firstToken token).1 = stripRoleTag token ∧
    (onTokenStep firstToken token).1 =
      (if firstToken then TokenAct.replaceMsg (stripRoleTag token)
       else TokenAct.appendChunk (stripRoleTag token)) := by
  cases firstToken <;> simp [onTokenStep, actText]

/-- Helper: `List.isPrefixOf` is reflexive. -/
theorem isPrefixOf_self (l : Str) : l.isPrefixOf l = true := by
  induction l with
  | nil => rfl
  | cons a l ih => simp [List.isPrefixOf, ih]

/-- Helper: every string contains itself as a substring. -/
theorem containsSub_self (s : Str) : containsSub s s = true := by
  cases s with
  | nil => rfl
  | cons c cs => simp [containsSub, isPrefixOf_self]

/-- Helper: a trim-invariant string survives `dropWhile` on both ends. -/
theorem trim_parts (A : Str) (h : trim A = A) :
    A.dropWhile isSpace = A ∧ A.reverse.dropWhile isSpace = A.reverse := by
  have hlen1 : (A.dropWhile isSpace).length ≤ A.length :=
    (List.dropWhile_suffix _).length_le
  have hlen2 : ((A.dropWhile isSpace).reverse.dropWhile isSpace).length
      ≤ (A.dropWhile isSpace).length := by
    simpa using
      (List.dropWhile_suffix (l := (A.dropWhile isSpace).reverse) isSpace).length_le
  have hts : (trim A).length = A.length := by rw [h]
  have htlen : (trim A).length
      = ((A.dropWhile isSpace).reverse.dropWhile isSpace).length := by
    simp [trim]
  have he1 : (A.dropWhile isSpace).length = A.length := by omega
  have hd1 : A.dropWhile isSpace = A := (List.dropWhile_suffix _).eq_of_length he1
  refine ⟨hd1, ?_⟩
  have hA : (A.reverse.dropWhile isSpace).reverse = A := by
    have h2 := h
    unfold trim at h2
    rw [hd1] at h2
    exact h2
  have := congrArg List.reverse hA
  simpa using this

/-- Helper: appending anything to a left-trim-invariant nonempty string
leaves `dropWhile` with nothing to drop. -/
theorem dropWhile_eq_self_append (p : Char → Bool) (l m : Str) (hne : l ≠ [])
    (hl : l.dropWhile p = l) : (l ++ m).dropWhile p = l ++ m := by
  obtain ⟨a, as, rfl⟩ := List.exists_cons_of_ne_nil hne
  have ha : ¬ p a = true := by
    intro hpa
    rw [List.dropWhile_cons, if_pos hpa] at hl
    have hle : (as.dropWhile p).length ≤ as.length :=
      (List.dropWhile_suffix (l := as) p).length_le
    have := congrArg List.length hl
    simp at this
    omega
  simp [List.dropWhile_cons, ha]

/-- Helper: doubling a trim-invariant nonempty string is again
trim-invariant. -/
theorem trim_append_self (A : Str) (hne : A ≠ []) (h : trim A = A) :
    trim (A ++ A) = A ++ A := by
  obtain ⟨h1, h2⟩ := trim_parts A h
  have hrne : A.reverse ≠ [] := by simpa using hne
  have hd : (A ++ A).dropWhile isSpace = A ++ A :=
    dropWhile_eq_self_append _ _ _ hne h1
  have hdr : (A ++ A).reverse.dropWhile isSpace = (A ++ A).reverse := by
    rw [List.reverse_append]
    exact dropWhile_eq_self_append _ _ _ hrne h2
  unfold trim
  rw [hd, hdr, List.reverse_reverse]

/-- Helper: the similarity of a nonempty string with itself is `9/10`
(the substring branch fires). -/
theorem calculateSimilarity_self (A : Str) (h : A ≠ []) :
    calculateSimilarity A A = 9 / 10 := by
  unfold calculateSimilarity
  simp only [lt_self_iff_false, if_false, ite_self]
  rw [if_neg (by simpa using h), if_pos (by simp [containsSub_self])]

/-- C7.  Whole-message halves check of the Duplicate Detector: whenever
the two trimmed halves of the trimmed finalized text each exceed 100
characters and their similarity exceeds `0.8`, the detector's output is
exactly the trimmed first half (the paragraph-level check is skipped);
in particular on `A ++ A` with a trim-invariant `A` longer than 100
characters the output is exactly `A`. -/
theorem dedupContent_first_half_on_similar_halves :
    (∀ text : Str,
      100 < (trim ((trim text).take ((trim text).length / 2))).length →
      100 < (trim ((trim text).drop ((trim text).length / 2))).length →
      (8 : ℚ) / 10 < calculateSimilarity
          (trim ((trim text).take ((trim text).length / 2)))
          (trim ((trim text).drop ((trim text).length / 2))) →
      dedupContent text = trim ((trim text).take ((trim text).length / 2))) ∧
    (∀ A : Str, trim A = A → 100 < A.length → dedupContent (A ++ A) = A) := by
  constructor
  · intro text h1 h2 h3
    simp only [dedupContent]
    rw [if_pos ⟨h1, h2, h3⟩]
  · intro A ht hlen
    have hne : A ≠ [] := by
      intro hA
      rw [hA] at hlen
      simp at hlen
    have hTT : trim (A ++ A) = A ++ A := trim_append_self A hne ht
    have hmid : (A ++ A).length / 2 = A.length := by
      simp [List.length_append]
      omega
    simp only [dedupContent]
    rw [hTT, hmid, List.take_left, List.drop_left, ht]
    rw [if_pos]
    exact ⟨hlen, hlen, by rw [calculateSimilarity_self A hne]; norm_num⟩

/-- C7, witness: the halves theorem applied to the concrete text of 101
copies of the letter a, doubled. -/
theorem dedupContent_first_half_witness :
    trim (List.replicate 101 'a') = List.replicate 101 'a' ∧
    100 < (List.replicate 101 'a').length ∧
    dedupContent (List.replicate 101 'a' ++ List.replicate 101 'a')
      = List.replicate 101 'a' :=
  ⟨by decide, by decide,
    dedupContent_first_half_on_similar_halves.2 _ (by decide) (by decide)⟩

/-- Helper: reading back the key just written into the signature map. -/
theorem mapGet_mapSet_same (m : SigMap) (k : Str) (v : Nat) :
    mapGet (mapSet m k v) k = v := by
  induction m with
  | nil => simp [mapSet, mapGet, List.find?]
  | cons p m ih =>
    by_cases hp : p.1 = k
    · simp [mapSet, hp, mapGet, List.find?]
    · simp only [mapSet, if_neg hp]
      simpa [mapGet, List.find?, hp] using ih

/-- Helper: reading a key off a cons cell of the signature map. -/
theorem mapGet_cons (p : Str × Nat) (m : SigMap) (k : Str) :
    mapGet (p :: m) k = if p.1 = k then p.2 else mapGet m k := by
  simp only [mapGet, List.find?]
  by_cases hp : p.1 = k
  · simp [hp]
  · simp [hp]

/-- Helper: writing one key leaves every other key unchanged. -/
theorem mapGet_mapSet_other (m : SigMap) (k k2 : Str) (v : Nat) (h : k2 ≠ k) :
    mapGet (mapSet m k v) k2 = mapGet m k2 := by
  have hk : ¬ k = k2 := fun hh => h hh.symm
  induction m with
  | nil => simp [mapSet, mapGet_cons, hk, mapGet]
  | cons p m ih =>
    simp only [mapSet]
    by_cases hp : p.1 = k
    · rw [if_pos hp, mapGet_cons, mapGet_cons, if_neg hk, hp, if_neg hk]
    · rw [if_neg hp, mapGet_cons, mapGet_cons]
      by_cases hp2 : p.1 = k2
      · simp [hp2]
      · simp [hp2, ih]

/-- Helper: the count-map walk of the source agrees with the declarative
first-occurrence filter, under the invariant that a signature has count
zero exactly when no earlier section produced it. -/
theorem dedupSections_eq_keepFirst (l : List Str) (seen : SigMap) (prior : List Str)
    (hinv : ∀ k, mapGet seen k = 0 ↔ k ∉ prior.map normalizeSec) :
    dedupSections seen l = keepFirstBySig prior l := by
  induction l generalizing seen prior with
  | nil => rfl
  | cons sec rest ih =>
    simp only [dedupSections, keepFirstBySig]
    by_cases hmem : normalizeSec sec ∈ prior.map normalizeSec
    · have hcnt : ¬ mapGet seen (normalizeSec sec) = 0 := by
        intro h0
        exact (hinv _).mp h0 hmem
      rw [if_neg hcnt, if_pos hmem]
      apply ih
      intro k
      by_cases hk : k = normalizeSec sec
      · subst hk
        rw [mapGet_mapSet_same]
        constructor
        · intro h; omega
        · intro h
          exact absurd (by simp [List.map_append]) h
      · rw [mapGet_mapSet_other _ _ _ _ hk]
        rw [hinv k]
        simp [List.map_append, hk]
    · have hcnt : mapGet seen (normalizeSec sec) = 0 := (hinv _).mpr hmem
      rw [if_pos hcnt, if_neg hmem]
      congr 1
      apply ih
      intro k
      by_cases hk : k = normalizeSec sec
      · subst hk
        rw [mapGet_mapSet_same]
        constructor
        · intro h; omega
        · intro h
          exact absurd (by simp [List.map_append]) h
      · rw [mapGet_mapSet_other _ _ _ _ hk]
        rw [hinv k]
        simp [List.map_append, hk]

/-- C5, counterexample.  The claim computes the signature by collapsing
whitespace first and truncating to 150 characters afterwards; the code
truncates the trimmed, lowercased section to 150 characters first and
collapses afterwards.  On the concrete text `cexB ++ "\n\n" ++ cexA`
the two sections have equal signatures in the claim's order (so the
claim predicts the second section is discarded and the output is the
first section alone), yet the detector keeps both sections and returns
the text unchanged. -/
theorem paragraphCheck_signature_order_counterexample :
    specSignature cexA = specSignature cexB ∧
    splitSections cexText = [cexB, cexA] ∧
    paragraphCheck cexText = cexText ∧
    paragraphCheck cexText ≠ joinBlank [cexB] := by
  decide

/-- C5, amended.  Paragraph-level check of the Duplicate Detector: each
section's signature is the whitespace-collapse of the first 150
characters of the trimmed, lowercased section (truncation happens
before collapsing); a section is kept exactly when its signature
differs from the signature of every earlier section; and when at least
one section was discarded the survivors are rejoined with one blank
line in original order, otherwise the text is returned unchanged. -/
theorem paragraphCheck_keeps_first_occurrence (content : Str) :
    dedupSections [] (splitSections content)
      = keepFirstBySig [] (splitSections content) ∧
    paragraphCheck content =
      (if 1 < (splitSections content).length ∧
          (keepFirstBySig [] (splitSections content)).length
            < (splitSections content).length
       then joinBlank (keepFirstBySig [] (splitSections content))
       else content) := by
  have hd : dedupSections [] (splitSections content)
      = keepFirstBySig [] (splitSections content) :=
    dedupSections_eq_keepFirst _ [] [] (by intro k; simp [mapGet, List.find?])
  refine ⟨hd, ?_⟩
  simp only [paragraphCheck, hd]
  by_cases h1 : 1 < (splitSections content).length
  · rw [if_pos h1]
    by_cases h2 : (keepFirstBySig [] (splitSections content)).length
        < (splitSections content).length
    · rw [if_pos h2, if_pos ⟨h1, h2⟩]
    · rw [if_neg h2, if_neg (fun h => h2 h.2)]
  · rw [if_neg h1, if_neg (fun h => h1 h.1)]

/-- Helper: `splitLines` never returns the empty list. -/
theorem splitLines_ne_nil (s : Str) : splitLines s ≠ [] := by
  induction s with
  | nil => simp [splitLines]
  | cons c cs ih =>
    by_cases hc : c = '\n'
    · simp [splitLines, hc]
    · simp only [splitLines, if_neg hc]
      cases h : splitLines cs with
      | nil => simp
      | cons l ls => simp

/-- Helper: popping a list with a nonempty tail. -/
theorem popLast_cons_ne (a : Str) (L : List Str) (h : L ≠ []) :
    popLast (a :: L) = (a :: (popLast L).1, (popLast L).2) := by
  cases L with
  | nil => exact absurd rfl h
  | cons b t => rfl

/-- Helper: `mergeHead` never returns the empty list. -/
theorem mergeHead_ne_nil (a : Str) (L : List Str) : mergeHead a L ≠ [] := by
  cases L <;> simp [mergeHead]

/-- Helper: popping past a prepended prefix. -/
theorem popLast_append (A C : List Str) (h : C ≠ []) :
    popLast (A ++ C) = (A ++ (popLast C).1, (popLast C).2) := by
  induction A with
  | nil => simp
  | cons a A ih =>
    have hne : A ++ C ≠ [] := by
      intro hac
      rcases List.append_eq_nil.mp hac with ⟨-, h2⟩
      exact h h2
    rw [List.cons_append, popLast_cons_ne _ _ hne, ih]
    simp

/-- Helper: splitting a newline-free string yields that one line. -/
theorem splitLines_noNl (s : Str) (h : '\n' ∉ s) : splitLines s = [s] := by
  induction s with
  | nil => rfl
  | cons c cs ih =>
    have hc : ¬ c = '\n' := fun hh => h (hh ▸ List.mem_cons_self c cs)
    have hcs : '\n' ∉ cs := fun hh => h (List.mem_cons_of_mem c hh)
    simp only [splitLines, if_neg hc, ih hcs]

/-- Helper: the buffer left after a split contains no newline. -/
theorem popLast_splitLines_noNl (s : Str) : '\n' ∉ (popLast (splitLines s)).2 := by
  induction s with
  | nil => simp [splitLines, popLast]
  | cons c cs ih =>
    by_cases hc : c = '\n'
    · rw [show splitLines (c :: cs) = [] :: splitLines cs by simp [splitLines, hc]]
      rw [popLast_cons_ne _ _ (splitLines_ne_nil cs)]
      exact ih
    · simp only [splitLines, if_neg hc]
      cases h : splitLines cs with
      | nil => exact absurd h (splitLines_ne_nil cs)
      | cons l ls =>
        cases ls with
        | nil =>
          simp only [popLast]
          rw [h] at ih
          simp only [popLast] at ih
          intro hmem
          rcases List.mem_cons.mp hmem with h1 | h2
          · exact hc h1.symm
          · exact ih h2
        | cons l2 t =>
          rw [popLast_cons_ne _ _ (by simp)]
          rw [h] at ih
          rw [popLast_cons_ne _ _ (by simp)] at ih
          exact ih

/-- Helper: splitting a concatenation splits the first part, keeps all
its complete lines, and merges its trailing line into the first line of
the second part. -/
theorem splitLines_append (x y : Str) :
    splitLines (x ++ y)
      = (popLast (splitLines x)).1
          ++ mergeHead (popLast (splitLines x)).2 (splitLines y) := by
  induction x with
  | nil =>
    simp only [List.nil_append, splitLines, popLast]
    cases h : splitLines y with
    | nil => exact absurd h (splitLines_ne_nil y)
    | cons l ls => simp [mergeHead]
  | cons c cs ih =>
    by_cases hc : c = '\n'
    · rw [show (c :: cs) ++ y = '\n' :: (cs ++ y) by rw [hc]; rfl]
      rw [show splitLines ('\n' :: (cs ++ y)) = [] :: splitLines (cs ++ y) by
        simp [splitLines]]
      rw [show splitLines (c :: cs) = [] :: splitLines cs by simp [splitLines, hc]]
      rw [popLast_cons_ne _ _ (splitLines_ne_nil cs), ih]
      rfl
    · rw [show (c :: cs) ++ y = c :: (cs ++ y) by rfl]
      simp only [splitLines, if_neg hc]
      cases h : splitLines cs with
      | nil => exact absurd h (splitLines_ne_nil cs)
      | cons l ls =>
        cases ls with
        | nil =>
          -- splitLines cs = [l]: the whole of cs is one line
          rw [h] at ih
          simp only [popLast] at ih ⊢
          rw [ih]
          cases hy : splitLines y with
          | nil => exact absurd hy (splitLines_ne_nil y)
          | cons ly lys => simp [mergeHead]
        | cons l2 t =>
          rw [h] at ih
          rw [ih]
          rw [popLast_cons_ne _ _ (by simp)]
          have hne2 : (popLast (l2 :: t)).1 ++ mergeHead (popLast (l2 :: t)).2 (splitLines y)
              ≠ [] := by
            intro hh
            rcases List.append_eq_nil.mp hh with ⟨-, h2⟩
            exact mergeHead_ne_nil _ _ h2
          cases hrec : (popLast (l2 :: t)).1 ++ mergeHead (popLast (l2 :: t)).2 (splitLines y) with
          | nil => exact absurd hrec hne2
          | cons r rs => simp [popLast_cons_ne]

/-- Helper: feeding two chunks through the relay read loop is the same
as feeding their concatenation. -/
theorem relayAbsorb_comp (st : Str × List Str) (a b : Str) :
    relayAbsorb (relayAbsorb st a) b = relayAbsorb st (a ++ b) := by
  unfold relayAbsorb
  have hno : '\n' ∉ (popLast (splitLines (st.1 ++ a))).2 :=
    popLast_splitLines_noNl (st.1 ++ a)
  have hsplit : splitLines ((popLast (splitLines (st.1 ++ a))).2 ++ b)
      = mergeHead (popLast (splitLines (st.1 ++ a))).2 (splitLines b) := by
    rw [splitLines_append _ b, splitLines_noNl _ hno]
    simp [popLast]
  have hx : splitLines (st.1 ++ (a ++ b))
      = (popLast (splitLines (st.1 ++ a))).1
          ++ mergeHead (popLast (splitLines (st.1 ++ a))).2 (splitLines b) := by
    rw [← List.append_assoc, splitLines_append (st.1 ++ a) b]
  simp only [hsplit, hx]
  rw [popLast_append _ _ (mergeHead_ne_nil _ _)]
  simp [List.flatMap_append, List.append_assoc]

/-- Helper: absorbing the empty chunk with a newline-free buffer is a
no-op. -/
theorem relayAbsorb_nil (st : Str × List Str) (h : '\n' ∉ st.1) :
    relayAbsorb st [] = st := by
  unfold relayAbsorb
  rw [List.append_nil, splitLines_noNl _ h]
  simp [popLast]

/-- Helper: the read-loop fold over a chunk list equals one absorption
of the concatenated payload, for any newline-free starting buffer. -/
theorem foldl_relayAbsorb (chunks : List Str) :
    ∀ st : Str × List Str, '\n' ∉ st.1 →
      chunks.foldl relayAbsorb st = relayAbsorb st chunks.flatten := by
  induction chunks with
  | nil =>
    intro st h
    simp only [List.foldl_nil, List.flatten_nil]
    exact (relayAbsorb_nil st h).symm
  | cons c cs ih =>
    intro st h
    simp only [List.foldl_cons, List.flatten_cons]
    rw [ih _ (popLast_splitLines_noNl _), relayAbsorb_comp]

/-- C1.  Chunk-split invariance of the Stream Relay: feeding any chunk
sequence through the relay's buffer-and-split loop emits exactly the
same output lines as feeding the whole concatenated payload as one
chunk.  This holds for every payload, in particular for every valid
newline-delimited JSON payload and every split of it at any offset. -/
theorem relayRun_chunk_split_invariant (chunks : List Str) :
    relayRun chunks = relayRun [chunks.flatten] := by
  unfold relayRun
  rw [foldl_relayAbsorb chunks ([], []) (by simp)]
  simp only [List.foldl_cons, List.foldl_nil]

/-- C6, amended.  When the upstream ends with a non-empty trailing
buffer the Relay runs one final parse-and-validate pass on it, but the
rules differ from the in-loop path on validation failure: a JSON-parse
failure emits nothing, a schema-validation failure also emits nothing —
no `validation_error` event is synthesized for the trailing buffer —
and only a schema-valid event is re-serialized and emitted,
newline-terminated, before the output closes. -/
theorem relayFinish_final_pass :
    (∀ buffer : Str, jsonParse buffer = none → relayFinish buffer = []) ∧
    (∀ (buffer : Str) (j : Json), jsonParse buffer = some j →
      validateEvent j = none → relayFinish buffer = []) ∧
    (∀ (buffer : Str) (j : Json) (e : ChatStreamEvent),
      (trim buffer).isEmpty = false → jsonParse buffer = some j →
      validateEvent j = some e →
      relayFinish buffer = [serializeEvent e ++ ['\n']]) := by
  refine ⟨?_, ?_, ?_⟩
  · intro buffer hp
    unfold relayFinish
    split_ifs with h
    · rfl
    · rw [hp]
  · intro buffer j hp hv
    unfold relayFinish
    split_ifs with h
    · rfl
    · simp only [hp, hv]
  · intro buffer j e ht hp hv
    unfold relayFinish
    rw [if_neg (by simp [ht])]
    simp only [hp, hv]

/-- C6, witness: the final-pass theorem applied to three concrete
trailing buffers — a schema-invalid JSON object, a valid done event,
and a line that is not JSON. -/
theorem relayFinish_final_pass_witness :
    relayFinish ("\x7b\"type\":\"delta\"\x7d".toList) = [] ∧
    relayFinish ("\x7b\"type\":\"done\"\x7d".toList)
      = [serializeEvent ChatStreamEvent.done ++ ['\n']] ∧
    relayFinish ("not json".toList) = [] :=
  ⟨relayFinish_final_pass.2.1 _ (Json.obj [(keyType, Json.str tagDelta)]) rfl rfl,
   relayFinish_final_pass.2.2 _ (Json.obj [(keyType, Json.str tagDone)])
     ChatStreamEvent.done rfl rfl rfl,
   relayFinish_final_pass.1 _ rfl⟩

/-- C6, counterexample.  The claim says a trailing buffer that parses
as JSON but fails schema validation makes the Relay emit exactly one
`validation_error` event.  On the concrete stream consisting of the
single chunk with the schema-invalid trailing buffer below (no final
newline), the buffer parses as JSON, fails validation, and the Relay
emits nothing at all. -/
theorem relayRun_trailing_invalid_counterexample :
    jsonParse ("\x7b\"type\":\"delta\"\x7d".toList)
      = some (Json.obj [(keyType, Json.str tagDelta)]) ∧
    validateEvent (Json.obj [(keyType, Json.str tagDelta)]) = none ∧
    relayRun ["\x7b\"type\":\"delta\"\x7d".toList] = [] :=
  ⟨rfl, rfl, rfl⟩

/-- C2.  A well-formed tool event line parses as JSON but fails the
Relay's `ChatStreamEventSchema` validation — the discriminated union
has no `tool` variant — so instead of re-serializing and forwarding the
tool event, the Relay emits the synthesized `validation_error` event.
The stream consumer and the chat page both implement a tool-event path
(`onTool` dispatch and flashcard generation), which this makes
unreachable. -/
theorem relayLine_replaces_tool_event :
    jsonParse
        ("\x7b\"type\":\"tool\",\"name\":\"generateFlashcards\",\"args\":\x7b\x7d\x7d".toList)
      = some (Json.obj [(keyType, Json.str tagTool),
          (keyName, Json.str ("generateFlashcards".toList)),
          (keyArgs, Json.obj [])]) ∧
    validateEvent (Json.obj [(keyType, Json.str tagTool),
        (keyName, Json.str ("generateFlashcards".toList)),
        (keyArgs, Json.obj [])]) = none ∧
    relayLine
        ("\x7b\"type\":\"tool\",\"name\":\"generateFlashcards\",\"args\":\x7b\x7d\x7d".toList)
      = [serializeEvent invalidEvent ++ ['\n']] ∧
    serializeEvent invalidEvent
      = ("\x7b\"type\":\"error\",\"message\":\"Invalid event format from backend\",\"code\":\"validation_error\"\x7d".toList) :=
  ⟨rfl, rfl, rfl, rfl⟩

/-- C10.  A line that parses as JSON with `type` equal to `error`
dispatches none of the consumer's three handlers, and the consumer
simply continues with the remaining lines: the calls produced by a line
list containing such a line are exactly the calls of the list without
it. -/
theorem consumeLine_discards_error_events (pre post : List Str) (line : Str) (j : Json)
    (hp : jsonParse line = some j)
    (ht : jsonProp j keyType = some (Json.str tagError)) :
    consumeLine line = [] ∧
    consumeParts (pre ++ line :: post) = consumeParts pre ++ consumeParts post := by
  have hline : consumeLine line = [] := by
    unfold consumeLine
    split_ifs with h
    · rfl
    · simp only [hp, ht]
      rw [if_neg (by decide), if_neg (by decide), if_neg (by decide)]
  refine ⟨hline, ?_⟩
  unfold consumeParts
  simp [List.flatMap_append, List.flatMap_cons, hline]

/-- C10, witness: the discard theorem applied to a delta line, the
concrete relay-synthesized `validation_error` line, and a done line. -/
theorem consumeLine_discards_error_events_witness :
    consumeParts ["\x7b\"type\":\"delta\",\"token\":\"Hi\"\x7d".toList,
        "\x7b\"type\":\"error\",\"message\":\"Invalid event format from backend\",\"code\":\"validation_error\"\x7d".toList,
        "\x7b\"type\":\"done\"\x7d".toList]
      = consumeParts ["\x7b\"type\":\"delta\",\"token\":\"Hi\"\x7d".toList]
        ++ consumeParts ["\x7b\"type\":\"done\"\x7d".toList] :=
  (consumeLine_discards_error_events
    ["\x7b\"type\":\"delta\",\"token\":\"Hi\"\x7d".toList]
    ["\x7b\"type\":\"done\"\x7d".toList]
    ("\x7b\"type\":\"error\",\"message\":\"Invalid event format from backend\",\"code\":\"validation_error\"\x7d".toList)
    (Json.obj [(keyType, Json.str tagError),
      (keyMessage, Json.str ("Invalid event format from backend".toList)),
      (keyCode, Json.str ("validation_error".toList))])
    rfl rfl).2

/-- Helper: `takeWhile (· ≠ ch)` over an append stops exactly at the
first `ch`. -/
theorem takeWhile_ne_append (ch : Char) (f r : Str) (h : ch ∉ f) :
    (f ++ ch :: r).takeWhile (fun x => x ≠ ch) = f := by
  induction f with
  | nil => simp [List.takeWhile_cons]
  | cons a t ih =>
    have ha : ¬ a = ch := fun hh => h (by rw [hh]; exact List.mem_cons_self _ _)
    simp only [List.cons_append, List.takeWhile_cons]
    rw [if_pos (by simp [ha])]
    rw [ih (fun hh => h (List.mem_cons_of_mem _ hh))]

/-- Helper: `dropWhile (· ≠ ch)` over an append drops exactly up to the
first `ch`. -/
theorem dropWhile_ne_append (ch : Char) (f r : Str) (h : ch ∉ f) :
    (f ++ ch :: r).dropWhile (fun x => x ≠ ch) = ch :: r := by
  induction f with
  | nil => simp [List.dropWhile_cons]
  | cons a t ih =>
    have ha : ¬ a = ch := fun hh => h (by rw [hh]; exact List.mem_cons_self _ _)
    simp only [List.cons_append, List.dropWhile_cons]
    rw [if_pos (by simp [ha])]
    exact ih (fun hh => h (List.mem_cons_of_mem _ hh))

/-- Helper: the span scanner is the identity on text without `<`. -/
theorem step0F_no_angle (fuel : Nat) : ∀ s : Str, '<' ∉ s → step0F fuel s = s := by
  induction fuel with
  | zero => intro s _; rfl
  | succ fuel ih =>
    intro s h
    cases s with
    | nil => rfl
    | cons c cs =>
      have hc : ¬ c = '<' := fun hh => h (by rw [hh]; exact List.mem_cons_self _ _)
      simp only [step0F]
      rw [if_neg (fun hh => hc hh.1), ih cs (fun hh => h (List.mem_cons_of_mem _ hh))]

/-- Helper: the start-anchored role-tag test fails on colon-free text. -/
theorem roleTagMatches_no_colon (s : Str) (h : ':' ∉ s) : roleTagMatches s = false := by
  have hb : decide ((s.drop 9).headD ' ' = ':') = false := by
    apply decide_eq_false
    intro hh
    cases hd : s.drop 9 with
    | nil => rw [hd] at hh; simp at hh
    | cons a t =>
      rw [hd] at hh
      simp only [List.headD_cons] at hh
      exact h (hh ▸ List.mem_of_mem_drop (hd ▸ List.mem_cons_self a t))
  unfold roleTagMatches
  rw [hb]
  simp

/-- Helper: `stripRoleTag` is the identity on colon-free text. -/
theorem stripRoleTag_no_colon (s : Str) (h : ':' ∉ s) : stripRoleTag s = s := by
  unfold stripRoleTag
  rw [roleTagMatches_no_colon s h]
  simp

/-- Helper: the newline-anchored role-tag replacement is the identity on
colon-free text. -/
theorem stripNlRoleF_no_colon (fuel : Nat) : ∀ s : Str, ':' ∉ s → stripNlRoleF fuel s = s := by
  induction fuel with
  | zero => intro s _; rfl
  | succ fuel ih =>
    intro s h
    cases s with
    | nil => rfl
    | cons c cs =>
      have hcs : ':' ∉ cs := fun hh => h (List.mem_cons_of_mem _ hh)
      simp only [stripNlRoleF]
      rw [if_neg fun hh => by
        have := hh.2
        rw [roleTagMatches_no_colon cs hcs] at this
        exact Bool.false_ne_true this]
      rw [ih cs hcs]

/-- Helper: pattern 1 is the identity on dollar-free text. -/
theorem fixP1F_no_dollar (fuel : Nat) : ∀ s : Str, '$' ∉ s → fixP1F fuel s = s := by
  induction fuel with
  | zero => intro s _; rfl
  | succ fuel ih =>
    intro s h
    cases s with
    | nil => rfl
    | cons c cs =>
      have hc : ¬ c = '$' := fun hh => h (by rw [hh]; exact List.mem_cons_self _ _)
      simp only [fixP1F]
      rw [if_neg (fun hh => hc hh.1), ih cs (fun hh => h (List.mem_cons_of_mem _ hh))]

/-- Helper: the pattern-2 tail matcher fails on dollar-free text. -/
theorem p2Tail_no_dollar (s : Str) (h : '$' ∉ s) : p2Tail s = none := by
  unfold p2Tail
  rw [if_neg]
  intro hh
  cases s with
  | nil => simp at hh
  | cons a t =>
    simp [List.take] at hh
    exact h (hh ▸ List.mem_cons_self a t)

/-- Helper: pattern 2 is the identity on dollar-free text. -/
theorem fixP2F_no_dollar (fuel : Nat) : ∀ (atStart : Bool) (s : Str), '$' ∉ s →
    fixP2F fuel atStart s = s := by
  induction fuel with
  | zero => intro _ s _; rfl
  | succ fuel ih =>
    intro atStart s h
    cases s with
    | nil => rfl
    | cons c cs =>
      have hc : ¬ c = '$' := fun hh => h (by rw [hh]; exact List.mem_cons_self _ _)
      have hcs : '$' ∉ cs := fun hh => h (List.mem_cons_of_mem _ hh)
      simp only [fixP2F]
      rw [if_neg hc, p2Tail_no_dollar cs hcs]
      rw [ih false cs hcs]

/-- Helper: the `$$` search fails on dollar-free text. -/
theorem indexOfDDAux_no_dollar (s : Str) (h : '$' ∉ s) : indexOfDDAux s = none := by
  induction s with
  | nil => rfl
  | cons c cs ih =>
    have hc : ¬ c = '$' := fun hh => h (by rw [hh]; exact List.mem_cons_self _ _)
    simp only [indexOfDDAux]
    rw [if_neg (fun hh => hc hh.1), ih (fun hh => h (List.mem_cons_of_mem _ hh))]
    rfl

/-- Helper: the unclosed-`$$` loop is the identity on dollar-free
text. -/
theorem fixLoopF_no_dollar (fuel : Nat) (cleaned : Str) (start : Nat) (h : '$' ∉ cleaned) :
    fixLoopF fuel cleaned start = cleaned := by
  cases fuel with
  | zero => rfl
  | succ fuel =>
    have hidx : indexOfDD cleaned start = none := by
      unfold indexOfDD
      rw [indexOfDDAux_no_dollar _ (fun hh => h (List.mem_of_mem_drop hh))]
      rfl
    simp only [fixLoopF, hidx]

/-- Helper: pattern 3 is the identity on dollar-free text. -/
theorem fixP3F_no_dollar (fuel : Nat) : ∀ s : Str, '$' ∉ s → fixP3F fuel s = s := by
  induction fuel with
  | zero => intro s _; rfl
  | succ fuel ih =>
    intro s h
    cases s with
    | nil => rfl
    | cons c cs =>
      have hc : ¬ c = '$' := fun hh => h (by rw [hh]; exact List.mem_cons_self _ _)
      simp only [fixP3F]
      rw [if_neg (fun hh => hc hh.1), ih cs (fun hh => h (List.mem_cons_of_mem _ hh))]

/-- Helper: pattern 4 is the identity on dollar-free text. -/
theorem fixP4F_no_dollar (fuel : Nat) : ∀ s : Str, '$' ∉ s → fixP4F fuel s = s := by
  induction fuel with
  | zero => intro s _; rfl
  | succ fuel ih =>
    intro s h
    cases s with
    | nil => rfl
    | cons c cs =>
      have hc : ¬ c = '$' := fun hh => h (by rw [hh]; exact List.mem_cons_self _ _)
      simp only [fixP4F]
      rw [if_neg (fun hh => hc hh.1), ih cs (fun hh => h (List.mem_cons_of_mem _ hh))]

/-- Helper: on delimiter-free, colon-free, trim-invariant text the full
normalizer is the identity. -/
theorem cleanLaTeX_fixed (t : Str) (h1 : '<' ∉ t) (h2 : '$' ∉ t) (h3 : ':' ∉ t)
    (ht : trim t = t) : cleanLaTeX t = t := by
  simp only [cleanLaTeX, step0]
  rw [step0F_no_angle _ _ h1, stripRoleTag_no_colon _ h3, stripNlRoleF_no_colon _ _ h3,
    fixP1F_no_dollar _ _ h2, fixP2F_no_dollar _ _ _ h2, fixLoopF_no_dollar _ _ _ h2,
    fixP3F_no_dollar _ _ h2, fixP4F_no_dollar _ _ h2, ht]

/-- C9, amended.  The Formula Normalizer is not idempotent in general —
a second pass can strip one further role prefix (see the
counterexample) — but on text containing none of the characters the
rules react to (`<`, `$`, `:`) and no surrounding whitespace the
normalizer is the identity, and hence idempotent: already-normalized
text of this shape is a fixed point and no delimiter is
double-wrapped. -/
theorem cleanLaTeX_fixed_point (t : Str) (h1 : '<' ∉ t) (h2 : '$' ∉ t) (h3 : ':' ∉ t)
    (ht : trim t = t) :
    cleanLaTeX t = t ∧ cleanLaTeX (cleanLaTeX t) = cleanLaTeX t := by
  have hfix := cleanLaTeX_fixed t h1 h2 h3 ht
  exact ⟨hfix, by rw [hfix, hfix]⟩

/-- C9, witness: the fixed-point theorem applied to the concrete text
`hello world`. -/
theorem cleanLaTeX_fixed_point_witness :
    '<' ∉ ("hello world".toList) ∧ '$' ∉ ("hello world".toList) ∧
    ':' ∉ ("hello world".toList) ∧ trim ("hello world".toList) = "hello world".toList ∧
    cleanLaTeX ("hello world".toList) = "hello world".toList :=
  ⟨by decide, by decide, by decide, by decide,
    (cleanLaTeX_fixed_point _ (by decide) (by decide) (by decide) (by decide)).1⟩

/-- C9, counterexample.  The claim says `cleanLaTeX` is idempotent on
every input.  On the concrete input `assistant:assistant:hi` the first
application strips one role prefix, producing `assistant:hi`, and the
second application strips another, producing `hi`: the normalizer
applied to its own output changes it again. -/
theorem cleanLaTeX_not_idempotent_counterexample :
    cleanLaTeX ("assistant:assistant:hi".toList) = "assistant:hi".toList ∧
    cleanLaTeX (cleanLaTeX ("assistant:assistant:hi".toList))
      ≠ cleanLaTeX ("assistant:assistant:hi".toList) := by
  constructor
  · rfl
  · decide

/-- Helper: one unfolding step of the span scanner on a cons cell. -/
theorem step0F_succ (fuel : Nat) (c : Char) (cs : Str) :
    step0F (fuel + 1) (c :: cs) =
      if c = '<' ∧ cs.take 2 = ['<', '<'] then
        (if ((cs.drop 2).takeWhile (fun x => x ≠ '>')).isEmpty then c :: step0F fuel cs
         else if ((cs.drop 2).dropWhile (fun x => x ≠ '>')).take 3 = ['>', '>', '>'] then
           convertSpan ((cs.drop 2).takeWhile (fun x => x ≠ '>'))
             ++ step0F fuel (((cs.drop 2).dropWhile (fun x => x ≠ '>')).drop 3)
         else c :: step0F fuel cs)
      else c :: step0F fuel cs := rfl

/-- Helper: the span scanner converts one well-formed `<<<...>>>` span,
copying an angle-free context around it. -/
theorem step0_span (pre f post : Str) (hpre : '<' ∉ pre) (hf : f ≠ []) (hfg : '>' ∉ f)
    (hpost : '<' ∉ post) :
    step0 (pre ++ '<' :: '<' :: '<' :: (f ++ '>' :: '>' :: '>' :: post))
      = pre ++ convertSpan f ++ post := by
  induction pre with
  | nil =>
    simp only [List.nil_append, step0, List.length_cons]
    rw [step0F_succ, if_pos ⟨rfl, rfl⟩]
    simp only [List.drop_succ_cons, List.drop_zero]
    rw [takeWhile_ne_append '>' f ('>' :: '>' :: post) hfg,
      dropWhile_ne_append '>' f ('>' :: '>' :: post) hfg]
    rw [if_neg (by simpa using hf)]
    rw [if_pos (show List.take 3 ('>' :: '>' :: '>' :: post) = ['>', '>', '>'] by rfl)]
    simp only [List.drop_succ_cons, List.drop_zero]
    rw [step0F_no_angle _ _ hpost]
  | cons c pre ih =>
    have hc : ¬ c = '<' := fun hh => hpre (by rw [hh]; exact List.mem_cons_self _ _)
    have hpre2 : '<' ∉ pre := fun hh => hpre (List.mem_cons_of_mem _ hh)
    simp only [List.cons_append, step0, List.length_cons]
    rw [step0F_succ, if_neg (fun hh => hc hh.1)]
    have hrec := ih hpre2
    simp only [step0] at hrec
    rw [hrec]

/-- C8.  The Formula Normalizer replaces every well-formed
`<<<formula>>>` span by the trimmed content wrapped in block (`$$`)
delimiters exactly when `convertSpan` selects display math — the
trimmed content contains a fraction, summation, over-bar,
multiplication, arrow or dot construct, an `=` with length over 15, a
line break, or has length over 40 — and in inline (`$`) delimiters
otherwise, copying the surrounding text; in particular the whole
normalizer sends `<<<\frac{1}{2}>>>` to the block-delimited fraction
and `<<<x>>>` to inline `$x$`. -/
theorem cleanLaTeX_formula_spans :
    (∀ pre f post : Str, '<' ∉ pre → f ≠ [] → '>' ∉ f → '<' ∉ post →
      step0 (pre ++ '<' :: '<' :: '<' :: (f ++ '>' :: '>' :: '>' :: post))
        = pre ++ convertSpan f ++ post) ∧
    cleanLaTeX ("<<<\\frac\x7b1\x7d\x7b2\x7d>>>".toList)
      = "$$\\frac\x7b1\x7d\x7b2\x7d$$".toList ∧
    cleanLaTeX ("<<<x>>>".toList) = "$x$".toList := by
  refine ⟨step0_span, by decide, by decide⟩

/-- C8, witness: the span theorem applied to the concrete text
`ab<<<x+y>>>cd` (inline: no display construct and length below the
thresholds). -/
theorem cleanLaTeX_formula_spans_witness :
    step0 ("ab<<<x+y>>>cd".toList)
      = "ab".toList ++ convertSpan ("x+y".toList) ++ "cd".toList :=
  cleanLaTeX_formula_spans.1 ("ab".toList) ("x+y".toList) ("cd".toList)
    (by decide) (by decide) (by decide) (by decide)
